import Mathlib

/-!
Verification development for the STV (single transferable vote) counting
engine in `stv.py`.

The embedding below translates the core of the source file: the `Ballot`
and `Election` data model, per-round score computation, round-winner
selection, surplus transfer, elimination, the drop pass, the backfill
loop, the overfill guard, and the main counting loop.

Modelling conventions:
* Python numbers (ballot weights, scores, the threshold) are modelled as
  exact rationals `ℚ`.  All arithmetic the program performs on them is
  `+ - * /`, which is exact.
* Python `dict` is modelled as an association list in insertion order
  (`ScoreDict`): `d[k] = v` overwrites in place or appends, `d[k] += v`
  raises `KeyError` when the key is missing, which is modelled by
  `Option`.
* Fallible operations (`KeyError` on a missing score key,
  `ZeroDivisionError` in the surplus fraction, `IndexError` from
  `losers.pop()` on an empty list and from `winners.pop()` in the
  overfill guard) are modelled with `Option`: `none` is a raised
  exception.
* `Rat` division by zero yields `0` in Lean where Python would raise
  `ZeroDivisionError`; for `threshold` this only differs at
  `seats = -1`, where the Python loop body (the only place the
  threshold is read) never runs starting from any constructed election,
  because `0 < -1` is false.
* The `while` loop of `run_election` is modelled with explicit fuel;
  `none` means the run raised or ran out of fuel.
* `list.remove` in the two spots where the removed element is always
  drawn from the list (removing round winners / eliminated losers from
  `hopefuls`) is modelled by `List.erase` (remove first occurrence);
  Python would raise `ValueError` only if the element were absent,
  which cannot happen there because the removed lists are built by
  filtering `hopefuls` itself.
* Python `sorted(..., key=..., reverse=True)` is a stable descending
  sort.  It is modelled by a stable descending insertion sort
  (`pySortDesc`), which is extensionally the unique stable descending
  ordering; stability is proved below (`pySortDesc_filter_eq`).
* `Round(final_winners, ...)` in the backfill loop stores a reference
  to the mutable accumulator list; the model records its value at
  append time.

The I/O shell (`ballots_from_json`, `party_plug`, `show`, `main`) is
out of scope per the specification and is not modelled.
-/

namespace STV

abbrev Candidate := String

/-- `Ballot`: a mutable ranked list of candidate preferences plus a
fractional weight (`weight: int | float = 1` in the source). -/
structure Ballot where
  ranking : List Candidate
  weight : ℚ
deriving DecidableEq, Repr

/-- `Ballot.current_preference`: `self.ranking[0]`, or `None` when the
ranking is empty. -/
def Ballot.current_preference (b : Ballot) : Option Candidate :=
  b.ranking.head?

/-- `Ballot.drop`: `self.ranking.remove(candidate)` with the
`ValueError` swallowed — removes the first occurrence, no-op when
absent. -/
def Ballot.drop (b : Ballot) (c : Candidate) : Ballot :=
  { b with ranking := b.ranking.erase c }

/-- A Python dict from candidates to scores, as an association list in
insertion order. -/
abbrev ScoreDict := List (Candidate × ℚ)

/-- Dict lookup: `d[c]`, `none` when the key is missing. -/
def dictGet (d : ScoreDict) (c : Candidate) : Option ℚ :=
  match d with
  | [] => none
  | (k, v) :: rest => if k = c then some v else dictGet rest c

/-- Dict write `d[c] = v`: overwrite in place, append when missing. -/
def dictSet (d : ScoreDict) (c : Candidate) (v : ℚ) : ScoreDict :=
  match d with
  | [] => [(c, v)]
  | (k, w) :: rest => if k = c then (k, v) :: rest else (k, w) :: dictSet rest c v

/-- Dict update `d[c] += w`: `KeyError` (i.e. `none`) when the key is
missing. -/
def dictAddTo (d : ScoreDict) (c : Candidate) (w : ℚ) : Option ScoreDict :=
  match dictGet d c with
  | none => none
  | some v => some (dictSet d c (v + w))

/-- Lookup with default `0`, used only where the source's lookup is
statically guaranteed to hit an existing key (keys of a score dict
always include every hopeful). -/
def dictGetD (d : ScoreDict) (c : Candidate) : ℚ :=
  (dictGet d c).getD 0

/-- `Round`: an immutable record of one iteration. -/
structure Round where
  winners : Option (List Candidate)
  losers : Option (List Candidate)
  scores : ScoreDict
deriving DecidableEq, Repr

/-- The `Election` state: candidate pool, ballots, seat target and
accumulated results. -/
structure Election where
  hopefuls : List Candidate
  ballots : List Ballot
  seats : Int
  winners : List Candidate
  losers : List Candidate
  rounds : List Round
deriving DecidableEq, Repr

/-- `Election.__init__`: assigns the fields directly; there is no
validation of `seats` in the source. -/
def Election.init (candidates : List Candidate) (ballots : List Ballot)
    (seats : Int) : Election :=
  { hopefuls := candidates, ballots := ballots, seats := seats,
    winners := [], losers := [], rounds := [] }

/-- `Election.threshold`: `len(self.ballots) / (self.seats + 1)` — the
count of ballots, not a weight sum. -/
def Election.threshold (e : Election) : ℚ :=
  (e.ballots.length : ℚ) / ((e.seats : ℚ) + 1)

/-- The score contribution of one ballot to candidate `c`: its weight
when `c` is its current preference, else `0`. -/
def prefContrib (c : Candidate) (b : Ballot) : ℚ :=
  if b.current_preference = some c then b.weight else 0

/-- Total weight credited to candidate `c` by a list of ballots. -/
def prefSum (bs : List Ballot) (c : Candidate) : ℚ :=
  (bs.map (prefContrib c)).sum

/-- First loop of `run_election` building `scores`: one key per hopeful,
value `threshold` for a hopeful already in `winners`, else `0`. -/
def Election.baseScores (e : Election) : ScoreDict :=
  e.hopefuls.foldl
    (fun d c => dictSet d c (if c ∈ e.winners then e.threshold else 0)) []

/-- One iteration of the second loop of `run_election`: skip an
exhausted ballot (`continue`), otherwise
`scores[ballot.current_preference] += ballot.weight`; a preference
that is not a score key raises `KeyError` (`none`). -/
def scoreUpd (d : ScoreDict) (b : Ballot) : Option ScoreDict :=
  match b.current_preference with
  | none => some d
  | some p => dictAddTo d p b.weight

/-- Second loop of `run_election`: fold `scoreUpd` over the ballots. -/
def Election.computeScores (e : Election) : Option ScoreDict :=
  e.ballots.foldlM scoreUpd e.baseScores

/-- Stable descending insertion (by looked-up score): the new element
goes after every element whose score is greater than or equal to its
own.  Together with `pySortDesc` this is extensionally Python's
`sorted(..., key=score, reverse=True)`. -/
def insDesc (sd : ScoreDict) (x : Candidate) : List Candidate → List Candidate
  | [] => [x]
  | y :: ys => if dictGetD sd y < dictGetD sd x then x :: y :: ys else y :: insDesc sd x ys

/-- Stable descending sort by looked-up score. -/
def pySortDesc (sd : ScoreDict) (l : List Candidate) : List Candidate :=
  l.foldl (fun acc x => insDesc sd x acc) []

/-- `round_winners`: hopefuls whose score meets or exceeds the
threshold, sorted by descending score (stably). -/
def Election.roundWinners (e : Election) (sd : ScoreDict) : List Candidate :=
  pySortDesc sd (e.hopefuls.filter (fun c => decide (e.threshold ≤ dictGetD sd c)))

/-- `Election.transfer_surplus`: every ballot whose current preference
is in `winners` has its weight multiplied by
`(scores[pref] - threshold) / scores[pref]`.  A missing score key is a
`KeyError`, a zero score a `ZeroDivisionError` (both `none`). -/
def Election.transfer_surplus (e : Election) (sd : ScoreDict) : Option (List Ballot) :=
  e.ballots.mapM
    (fun b =>
      match b.current_preference with
      | none => some b
      | some p =>
        if p ∈ e.winners then
          match dictGet sd p with
          | none => none
          | some v =>
            if v = 0 then none
            else some { b with weight := b.weight * ((v - e.threshold) / v) }
        else some b)

/-- The election branch of a round (`if len(round_winners) > 0`):
extend `winners`, record the `Round`, remove each round winner from
`hopefuls`, then run the surplus transfer. -/
def Election.electRound (e : Election) (sd : ScoreDict)
    (rw : List Candidate) : Option Election :=
  (Election.transfer_surplus
      { e with winners := e.winners ++ rw,
               rounds := e.rounds ++ [Round.mk (some rw) none sd],
               hopefuls := rw.foldl List.erase e.hopefuls } sd).map
    (fun bs =>
      { e with winners := e.winners ++ rw,
               rounds := e.rounds ++ [Round.mk (some rw) none sd],
               hopefuls := rw.foldl List.erase e.hopefuls,
               ballots := bs })

/-- Python's `min(hopefuls, key=lambda cand: scores[cand])` on
`c0 :: rest`: keeps the first element attaining the minimal score. -/
def pyMinScore (sd : ScoreDict) (c0 : Candidate) (rest : List Candidate) : Candidate :=
  rest.foldl (fun cur x => if dictGetD sd x < dictGetD sd cur then x else cur) c0

/-- `Election.eliminate_losers`: no-op on empty `hopefuls`; otherwise
every hopeful tied at the minimum score is appended to `losers`,
removed from `hopefuls`, and a `Round` is recorded. -/
def Election.eliminate_losers (e : Election) (sd : ScoreDict) : Election :=
  match e.hopefuls with
  | [] => e
  | c0 :: rest =>
    let loserScore := dictGetD sd (pyMinScore sd c0 rest)
    let ls := e.hopefuls.filter (fun c => decide (dictGetD sd c = loserScore))
    { e with losers := e.losers ++ ls,
             hopefuls := ls.foldl List.erase e.hopefuls,
             rounds := e.rounds ++ [Round.mk none (some ls) sd] }

/-- The shared drop pass: every ballot drops every candidate currently
in `winners` or `losers`. -/
def Election.dropPass (e : Election) : Election :=
  { e with ballots :=
      e.ballots.map (fun b => (e.winners ++ e.losers).foldl Ballot.drop b) }

/-- The inner backfill loop, on the reversed `losers` list so that
`losers.pop()` is the head.  Faithfully keeps the accumulating
`final_winners` list: each iteration appends the popped candidate to
`final_winners` and then extends `winners` with the whole accumulated
list again.  Returns (remaining reversed losers, winners, rounds);
popping with no losers left is an `IndexError` (`none`). -/
def backfillAux (sd : ScoreDict) (seats : Int) :
    List Candidate → List Candidate → List Candidate → List Round →
    Option (List Candidate × List Candidate × List Round)
  | _fw, [], winners, rounds =>
    if (winners.length : Int) < seats then none else some ([], winners, rounds)
  | fw, c :: rest, winners, rounds =>
    if (winners.length : Int) < seats then
      backfillAux sd seats (fw ++ [c]) rest (winners ++ (fw ++ [c]))
        (rounds ++ [Round.mk (some (fw ++ [c])) none sd])
    else some (c :: rest, winners, rounds)

/-- The backfill check: when `len(winners) + len(hopefuls) < seats`,
pop candidates off the end of `losers` into `winners` until the seats
are filled. -/
def Election.backfillCheck (e : Election) (sd : ScoreDict) : Option Election :=
  if ((e.winners.length + e.hopefuls.length : Nat) : Int) < e.seats then
    (backfillAux sd e.seats [] e.losers.reverse e.winners e.rounds).map
      (fun t => { e with losers := t.1.reverse, winners := t.2.1, rounds := t.2.2 })
  else some e

/-- The overfill guard loop `while len(winners) > seats: winners.pop()`
on the reversed winners list; popping an empty list is an `IndexError`
(`none`), reachable only for `seats < 0`. -/
def popLoop (seats : Int) : List Candidate → Option (List Candidate)
  | [] => if (0 : Int) > seats then none else some []
  | c :: rest =>
    if ((rest.length + 1 : Nat) : Int) > seats then popLoop seats rest
    else some (c :: rest)

/-- The overfill guard applied to an election state. -/
def Election.trimGuard (e : Election) : Option Election :=
  (popLoop e.seats e.winners.reverse).map (fun ws => { e with winners := ws.reverse })

/-- One iteration of the `while len(self.winners) < self.seats` loop:
score, elect or eliminate, drop pass, backfill check, overfill guard. -/
def Election.step (e : Election) : Option Election :=
  (e.computeScores).bind (fun sd =>
    (if 0 < (e.roundWinners sd).length
     then e.electRound sd (e.roundWinners sd)
     else some (e.eliminate_losers sd)).bind (fun e1 =>
      (e1.dropPass.backfillCheck sd).bind (fun e3 => e3.trimGuard)))

/-- `Election.run_election` with explicit fuel: iterate `step` while
`len(winners) < seats`.  `none` is a raised exception or exhausted
fuel. -/
def Election.runLoop : Nat → Election → Option Election
  | 0, e => if (e.winners.length : Int) < e.seats then none else some e
  | f + 1, e =>
    if (e.winners.length : Int) < e.seats then
      (e.step).bind (fun e1 => Election.runLoop f e1)
    else some e

/-- Modelled from the spec (not the source): the current total ballot
weight, which the specification says the threshold is recomputed
from.  Used to compare the spec's threshold formula with the one the
source actually implements. -/
def totalWeight (e : Election) : ℚ :=
  (e.ballots.map Ballot.weight).sum

/-! ### Dictionary lemmas -/

theorem dictGet_dictSet (d : ScoreDict) (c x : Candidate) (v : ℚ) :
    dictGet (dictSet d c v) x = if x = c then some v else dictGet d x := by
  induction d with
  | nil => simp [dictSet, dictGet, eq_comm]
  | cons kv rest ih =>
    obtain ⟨k, w⟩ := kv
    simp only [dictSet]
    by_cases hxc : x = c
    · rw [if_pos hxc]
      subst hxc
      by_cases hkc : k = x
      · rw [if_pos hkc]; simp [dictGet, hkc]
      · rw [if_neg hkc]; simp [dictGet, hkc, ih]
    · rw [if_neg hxc]
      by_cases hkc : k = c
      · rw [if_pos hkc]
        have hkx : ¬ k = x := fun h => hxc (h.symm.trans hkc)
        simp [dictGet, hkx]
      · rw [if_neg hkc]
        by_cases hkx : k = x
        · simp [dictGet, hkx]
        · simp [dictGet, hkx, ih, hxc]

theorem dictAddTo_eq_some {d d' : ScoreDict} {c : Candidate} {w : ℚ}
    (h : dictAddTo d c w = some d') :
    ∃ v, dictGet d c = some v ∧ d' = dictSet d c (v + w) := by
  unfold dictAddTo at h
  cases hv : dictGet d c with
  | none => rw [hv] at h; exact absurd h (by simp)
  | some v => rw [hv] at h; exact ⟨v, rfl, by simpa using h.symm⟩

theorem dictGetD_eq {d : ScoreDict} {c : Candidate} {v : ℚ}
    (h : dictGet d c = some v) : dictGetD d c = v := by
  simp [dictGetD, h]

theorem dictGet_foldl_dictSet (f : Candidate → ℚ) (l : List Candidate) :
    ∀ (d : ScoreDict) (x : Candidate),
    dictGet (l.foldl (fun d c => dictSet d c (f c)) d) x =
      if x ∈ l then some (f x) else dictGet d x := by
  induction l with
  | nil => intro d x; simp
  | cons c l ih =>
    intro d x
    simp only [List.foldl_cons]
    rw [ih]
    by_cases hxl : x ∈ l
    · simp [hxl]
    · by_cases hxc : x = c
      · subst hxc; simp [hxl, dictGet_dictSet]
      · simp [hxl, hxc, dictGet_dictSet]

theorem baseScores_get (e : Election) (x : Candidate) :
    dictGet e.baseScores x =
      if x ∈ e.hopefuls then some (if x ∈ e.winners then e.threshold else 0)
      else none := by
  unfold Election.baseScores
  rw [dictGet_foldl_dictSet (fun c => if c ∈ e.winners then e.threshold else 0)]
  simp [dictGet]

@[simp] theorem prefSum_nil (c : Candidate) : prefSum [] c = 0 := rfl

@[simp] theorem prefSum_cons (b : Ballot) (bs : List Ballot) (c : Candidate) :
    prefSum (b :: bs) c = prefContrib c b + prefSum bs c := by
  simp [prefSum]

theorem foldlM_scoreUpd_get (bs : List Ballot) :
    ∀ (d d' : ScoreDict), bs.foldlM scoreUpd d = some d' →
    ∀ c, dictGet d' c = (dictGet d c).map (fun v => v + prefSum bs c) := by
  induction bs with
  | nil =>
    intro d d' h c
    simp only [List.foldlM_nil, Option.pure_def, Option.some.injEq] at h
    subst h
    cases dictGet d c <;> simp
  | cons b bs ih =>
    intro d d' h c
    rw [List.foldlM_cons] at h
    cases hu : scoreUpd d b with
    | none => rw [hu] at h; exact Option.noConfusion h
    | some d1 =>
      rw [hu] at h
      have h2 : bs.foldlM scoreUpd d1 = some d' := h
      have hrec := ih d1 d' h2 c
      unfold scoreUpd at hu
      cases hp : b.current_preference with
      | none =>
        rw [hp] at hu
        cases hu
        rw [hrec]
        simp [prefContrib, hp]
      | some p =>
        rw [hp] at hu
        obtain ⟨v, hv, rfl⟩ := dictAddTo_eq_some hu
        rw [hrec, dictGet_dictSet, prefSum_cons]
        by_cases hcp : c = p
        · subst hcp
          rw [if_pos rfl, hv]
          have hcb : prefContrib c b = b.weight := by simp [prefContrib, hp]
          rw [hcb]
          show some (v + b.weight + prefSum bs c) = some (v + (b.weight + prefSum bs c))
          rw [add_assoc]
        · rw [if_neg hcp]
          have hne : ¬ b.current_preference = some c := by
            rw [hp]; exact fun h => hcp (Option.some.inj h).symm
          simp only [prefContrib, if_neg hne]
          cases dictGet d c <;> simp

theorem computeScores_get {e : Election} {sd : ScoreDict}
    (h : e.computeScores = some sd) (c : Candidate) :
    dictGet sd c =
      if c ∈ e.hopefuls
      then some ((if c ∈ e.winners then e.threshold else 0) + prefSum e.ballots c)
      else none := by
  unfold Election.computeScores at h
  rw [foldlM_scoreUpd_get e.ballots e.baseScores sd h c, baseScores_get]
  by_cases hc : c ∈ e.hopefuls <;> simp [hc]

/-! ### `pySortDesc` is a stable descending sort -/

theorem insDesc_perm (sd : ScoreDict) (x : Candidate) :
    ∀ l : List Candidate, (insDesc sd x l).Perm (x :: l) := by
  intro l
  induction l with
  | nil => simp [insDesc]
  | cons y ys ih =>
    simp only [insDesc]
    by_cases h : dictGetD sd y < dictGetD sd x
    · rw [if_pos h]
    · rw [if_neg h]
      exact (ih.cons y).trans (List.Perm.swap x y ys)

theorem pySortDesc_perm (sd : ScoreDict) (l : List Candidate) :
    (pySortDesc sd l).Perm l := by
  suffices h : ∀ (l acc : List Candidate),
      ((l.foldl (fun a x => insDesc sd x a) acc)).Perm (acc ++ l) by
    simpa [pySortDesc] using h l []
  intro l
  induction l with
  | nil => intro acc; simp
  | cons c l ih =>
    intro acc
    simp only [List.foldl_cons]
    refine (ih (insDesc sd c acc)).trans ?_
    refine (List.Perm.append_right l (insDesc_perm sd c acc)).trans ?_
    exact List.perm_middle.symm

theorem mem_pySortDesc {sd : ScoreDict} {l : List Candidate} {c : Candidate} :
    c ∈ pySortDesc sd l ↔ c ∈ l :=
  (pySortDesc_perm sd l).mem_iff

theorem insDesc_sorted (sd : ScoreDict) (x : Candidate) :
    ∀ {l : List Candidate},
      l.Pairwise (fun a b => dictGetD sd b ≤ dictGetD sd a) →
      (insDesc sd x l).Pairwise (fun a b => dictGetD sd b ≤ dictGetD sd a) := by
  intro l
  induction l with
  | nil => intro _; simp [insDesc]
  | cons y ys ih =>
    intro hs
    rw [List.pairwise_cons] at hs
    obtain ⟨hy, hys⟩ := hs
    simp only [insDesc]
    by_cases h : dictGetD sd y < dictGetD sd x
    · rw [if_pos h]
      refine List.pairwise_cons.mpr ⟨?_, List.pairwise_cons.mpr ⟨hy, hys⟩⟩
      intro z hz
      rcases List.mem_cons.mp hz with rfl | hz2
      · exact le_of_lt h
      · exact le_trans (hy z hz2) (le_of_lt h)
    · rw [if_neg h]
      refine List.pairwise_cons.mpr ⟨?_, ih hys⟩
      intro z hz
      have hz3 : z ∈ x :: ys := (insDesc_perm sd x ys).mem_iff.mp hz
      rcases List.mem_cons.mp hz3 with rfl | hz4
      · exact not_lt.mp h
      · exact hy z hz4

theorem pySortDesc_sorted (sd : ScoreDict) (l : List Candidate) :
    (pySortDesc sd l).Pairwise (fun a b => dictGetD sd b ≤ dictGetD sd a) := by
  suffices h : ∀ (l acc : List Candidate),
      acc.Pairwise (fun a b => dictGetD sd b ≤ dictGetD sd a) →
      ((l.foldl (fun a x => insDesc sd x a) acc)).Pairwise
        (fun a b => dictGetD sd b ≤ dictGetD sd a) by
    exact h l [] (by simp)
  intro l
  induction l with
  | nil => intro acc h; simpa using h
  | cons c l ih =>
    intro acc h
    simp only [List.foldl_cons]
    exact ih _ (insDesc_sorted sd c h)

theorem insDesc_filter (sd : ScoreDict) (s : ℚ) (x : Candidate) :
    ∀ {l : List Candidate},
      l.Pairwise (fun a b => dictGetD sd b ≤ dictGetD sd a) →
      (insDesc sd x l).filter (fun c => decide (dictGetD sd c = s)) =
        (if dictGetD sd x = s
         then l.filter (fun c => decide (dictGetD sd c = s)) ++ [x]
         else l.filter (fun c => decide (dictGetD sd c = s))) := by
  intro l
  induction l with
  | nil =>
    intro _
    by_cases hx : dictGetD sd x = s <;> simp [insDesc, hx]
  | cons y ys ih =>
    intro hs
    rw [List.pairwise_cons] at hs
    obtain ⟨hy, hys⟩ := hs
    simp only [insDesc]
    by_cases h : dictGetD sd y < dictGetD sd x
    · rw [if_pos h]
      by_cases hx : dictGetD sd x = s
      · have hnil : (y :: ys).filter (fun c => decide (dictGetD sd c = s)) = [] := by
          rw [List.filter_eq_nil_iff]
          intro a ha
          have hay : dictGetD sd a ≤ dictGetD sd y := by
            rcases List.mem_cons.mp ha with rfl | h2
            · exact le_refl _
            · exact hy a h2
          have hlt : dictGetD sd a < s := hx ▸ lt_of_le_of_lt hay h
          simp [ne_of_lt hlt]
        rw [if_pos hx, hnil, List.filter_cons, if_pos (by simp [hx]), hnil]
        rfl
      · rw [if_neg hx, List.filter_cons, if_neg (by simp [hx])]
    · rw [if_neg h]
      by_cases hyv : dictGetD sd y = s <;> by_cases hx : dictGetD sd x = s <;>
        simp [List.filter_cons, hyv, hx, ih hys]

theorem pySortDesc_filter_eq (sd : ScoreDict) (s : ℚ) (l : List Candidate) :
    (pySortDesc sd l).filter (fun c => decide (dictGetD sd c = s)) =
      l.filter (fun c => decide (dictGetD sd c = s)) := by
  suffices h : ∀ (l acc : List Candidate),
      acc.Pairwise (fun a b => dictGetD sd b ≤ dictGetD sd a) →
      ((l.foldl (fun a x => insDesc sd x a) acc)).filter
          (fun c => decide (dictGetD sd c = s)) =
        acc.filter (fun c => decide (dictGetD sd c = s)) ++
          l.filter (fun c => decide (dictGetD sd c = s)) by
    simpa [pySortDesc] using h l [] (by simp)
  intro l
  induction l with
  | nil => intro acc h; simp
  | cons c l ih =>
    intro acc hacc
    simp only [List.foldl_cons]
    rw [ih _ (insDesc_sorted sd c hacc), insDesc_filter sd s c hacc, List.filter_cons]
    by_cases hc : dictGetD sd c = s <;> simp [hc]

/-! ### `pyMinScore` computes a minimum over `c0 :: rest` -/

theorem pyMinScore_spec (sd : ScoreDict) :
    ∀ (rest : List Candidate) (c0 : Candidate),
      pyMinScore sd c0 rest ∈ c0 :: rest ∧
      ∀ x ∈ c0 :: rest, dictGetD sd (pyMinScore sd c0 rest) ≤ dictGetD sd x := by
  intro rest
  induction rest with
  | nil =>
    intro c0
    constructor
    · simp [pyMinScore]
    · intro x hx
      rcases List.mem_cons.mp hx with rfl | h
      · simp [pyMinScore]
      · cases h
  | cons y ys ih =>
    intro c0
    by_cases h : dictGetD sd y < dictGetD sd c0
    · have hrw : pyMinScore sd c0 (y :: ys) = pyMinScore sd y ys := by
        simp [pyMinScore, h]
      obtain ⟨hmem, hmin⟩ := ih y
      refine ⟨?_, ?_⟩
      · rw [hrw]; exact List.mem_cons_of_mem c0 hmem
      · intro x hx
        rw [hrw]
        rcases List.mem_cons.mp hx with rfl | hx2
        · exact le_trans (hmin y (List.mem_cons_self y ys)) (le_of_lt h)
        · exact hmin x hx2
    · have hrw : pyMinScore sd c0 (y :: ys) = pyMinScore sd c0 ys := by
        simp [pyMinScore, h]
      obtain ⟨hmem, hmin⟩ := ih c0
      refine ⟨?_, ?_⟩
      · rw [hrw]
        rcases List.mem_cons.mp hmem with heq | hmem2
        · rw [heq]; exact List.mem_cons_self c0 (y :: ys)
        · exact List.mem_cons_of_mem c0 (List.mem_cons_of_mem y hmem2)
      · intro x hx
        rw [hrw]
        rcases List.mem_cons.mp hx with rfl | hx2
        · exact hmin x (List.mem_cons_self x ys)
        · rcases List.mem_cons.mp hx2 with rfl | hx3
          · exact le_trans (hmin c0 (List.mem_cons_self c0 ys)) (not_lt.mp h)
          · exact hmin x (List.mem_cons_of_mem c0 hx3)

/-! ### Removing a sublist via repeated `list.remove` -/

theorem foldl_erase_eq_filter :
    ∀ (sub l : List Candidate), l.Nodup →
      sub.foldl List.erase l = l.filter (fun c => decide (c ∉ sub)) := by
  intro sub
  induction sub with
  | nil => intro l h; simp
  | cons a sub ih =>
    intro l hl
    simp only [List.foldl_cons]
    rw [ih (l.erase a) (hl.erase a), List.Nodup.erase_eq_filter hl, List.filter_filter]
    apply List.filter_congr
    intro c _
    by_cases h1 : c = a <;> by_cases h2 : c ∈ sub <;> simp [h1, h2]

/-! ### `mapM` over `Option` -/

theorem mapM_eq_some_getElem {α β : Type} (f : α → Option β) :
    ∀ (l : List α) (l2 : List β), l.mapM f = some l2 →
      ∀ i : Nat, l2[i]? = (l[i]?).bind f := by
  intro l
  induction l with
  | nil =>
    intro l2 h i
    simp only [List.mapM_nil, Option.pure_def, Option.some.injEq] at h
    subst h
    simp
  | cons a l ih =>
    intro l2 h i
    rw [List.mapM_cons] at h
    cases hfa : f a with
    | none => rw [hfa] at h; exact absurd h (by simp)
    | some b =>
      rw [hfa] at h
      cases hl : l.mapM f with
      | none => rw [hl] at h; exact absurd h (by simp)
      | some bs =>
        rw [hl] at h
        have h2 : b :: bs = l2 := by simpa using h
        subst h2
        cases i with
        | zero => simp [hfa]
        | succ n => simp [ih bs hl n]

theorem mapM_eq_some_length {α β : Type} (f : α → Option β) :
    ∀ (l : List α) (l2 : List β), l.mapM f = some l2 → l2.length = l.length := by
  intro l
  induction l with
  | nil =>
    intro l2 h
    simp only [List.mapM_nil, Option.pure_def, Option.some.injEq] at h
    subst h; rfl
  | cons a l ih =>
    intro l2 h
    rw [List.mapM_cons] at h
    cases hfa : f a with
    | none => rw [hfa] at h; exact absurd h (by simp)
    | some b =>
      rw [hfa] at h
      cases hl : l.mapM f with
      | none => rw [hl] at h; exact absurd h (by simp)
      | some bs =>
        rw [hl] at h
        have h2 : b :: bs = l2 := by simpa using h
        subst h2
        simp [ih bs hl]

theorem mapM_eq_some_mem {α β : Type} (f : α → Option β) :
    ∀ (l : List α) (l2 : List β), l.mapM f = some l2 →
      ∀ b ∈ l2, ∃ a ∈ l, f a = some b := by
  intro l
  induction l with
  | nil =>
    intro l2 h b hb
    simp only [List.mapM_nil, Option.pure_def, Option.some.injEq] at h
    subst h
    cases hb
  | cons a l ih =>
    intro l2 h b hb
    rw [List.mapM_cons] at h
    cases hfa : f a with
    | none => rw [hfa] at h; exact absurd h (by simp)
    | some b0 =>
      rw [hfa] at h
      cases hl : l.mapM f with
      | none => rw [hl] at h; exact absurd h (by simp)
      | some bs =>
        rw [hl] at h
        have h2 : b0 :: bs = l2 := by simpa using h
        subst h2
        rcases List.mem_cons.mp hb with rfl | hb2
        · exact ⟨a, List.mem_cons_self a l, hfa⟩
        · obtain ⟨a2, ha2, hfa2⟩ := ih bs hl b hb2
          exact ⟨a2, List.mem_cons_of_mem a ha2, hfa2⟩

/-! ### Field bookkeeping through the phases of a round -/

theorem transfer_surplus_length {e : Election} {sd : ScoreDict} {bs : List Ballot}
    (h : e.transfer_surplus sd = some bs) : bs.length = e.ballots.length :=
  mapM_eq_some_length _ _ _ h

theorem electRound_eq {e : Election} {sd : ScoreDict} {rw : List Candidate}
    {e2 : Election} (h : e.electRound sd rw = some e2) :
    ∃ bs, Election.transfer_surplus
        { e with winners := e.winners ++ rw,
                 rounds := e.rounds ++ [Round.mk (some rw) none sd],
                 hopefuls := rw.foldl List.erase e.hopefuls } sd = some bs ∧
      e2 = { e with winners := e.winners ++ rw,
                    rounds := e.rounds ++ [Round.mk (some rw) none sd],
                    hopefuls := rw.foldl List.erase e.hopefuls,
                    ballots := bs } := by
  unfold Election.electRound at h
  rw [Option.map_eq_some'] at h
  obtain ⟨bs, hbs, he⟩ := h
  exact ⟨bs, hbs, he.symm⟩

theorem eliminate_losers_inert (e : Election) (sd : ScoreDict) :
    (e.eliminate_losers sd).ballots = e.ballots ∧
    (e.eliminate_losers sd).seats = e.seats ∧
    (e.eliminate_losers sd).winners = e.winners := by
  unfold Election.eliminate_losers
  cases e.hopefuls <;> simp

theorem dropPass_winners (e : Election) : e.dropPass.winners = e.winners := rfl

theorem dropPass_losers (e : Election) : e.dropPass.losers = e.losers := rfl

theorem dropPass_hopefuls (e : Election) : e.dropPass.hopefuls = e.hopefuls := rfl

theorem dropPass_seats (e : Election) : e.dropPass.seats = e.seats := rfl

theorem dropPass_ballots (e : Election) :
    e.dropPass.ballots =
      e.ballots.map (fun b => (e.winners ++ e.losers).foldl Ballot.drop b) := rfl

theorem backfillCheck_fields {e : Election} {sd : ScoreDict} {e2 : Election}
    (h : e.backfillCheck sd = some e2) :
    e2.ballots = e.ballots ∧ e2.seats = e.seats ∧ e2.hopefuls = e.hopefuls := by
  unfold Election.backfillCheck at h
  by_cases hc : ((e.winners.length + e.hopefuls.length : Nat) : Int) < e.seats
  · rw [if_pos hc, Option.map_eq_some'] at h
    obtain ⟨t, _, he⟩ := h
    subst he
    exact ⟨rfl, rfl, rfl⟩
  · rw [if_neg hc] at h
    have he := Option.some.inj h
    subst he
    exact ⟨rfl, rfl, rfl⟩

theorem trimGuard_fields {e e2 : Election} (h : e.trimGuard = some e2) :
    e2.ballots = e.ballots ∧ e2.seats = e.seats ∧ e2.hopefuls = e.hopefuls ∧
    e2.losers = e.losers ∧ e2.rounds = e.rounds := by
  unfold Election.trimGuard at h
  rw [Option.map_eq_some'] at h
  obtain ⟨ws, _, he⟩ := h
  subst he
  exact ⟨rfl, rfl, rfl, rfl, rfl⟩

theorem step_eq {e e' : Election} (h : e.step = some e') :
    ∃ sd, e.computeScores = some sd ∧
      ∃ e1, (if 0 < (e.roundWinners sd).length
             then e.electRound sd (e.roundWinners sd)
             else some (e.eliminate_losers sd)) = some e1 ∧
        ∃ e3, e1.dropPass.backfillCheck sd = some e3 ∧ e3.trimGuard = some e' := by
  unfold Election.step at h
  rw [Option.bind_eq_some] at h
  obtain ⟨sd, hsc, h⟩ := h
  rw [Option.bind_eq_some] at h
  obtain ⟨e1, hb, h⟩ := h
  rw [Option.bind_eq_some] at h
  obtain ⟨e3, hbc, h⟩ := h
  exact ⟨sd, hsc, e1, hb, e3, hbc, h⟩

theorem step_preserves {e e' : Election} (h : e.step = some e') :
    e'.ballots.length = e.ballots.length ∧ e'.seats = e.seats := by
  obtain ⟨sd, hsc, e1, hb, e3, hbc, ht⟩ := step_eq h
  have h1 : e1.ballots.length = e.ballots.length ∧ e1.seats = e.seats := by
    by_cases hw : 0 < (e.roundWinners sd).length
    · rw [if_pos hw] at hb
      obtain ⟨bs, hbs, he⟩ := electRound_eq hb
      subst he
      refine ⟨?_, rfl⟩
      simpa using transfer_surplus_length hbs
    · rw [if_neg hw] at hb
      have he := Option.some.inj hb
      subst he
      obtain ⟨hb1, hs1, _⟩ := eliminate_losers_inert e sd
      exact ⟨by rw [hb1], hs1⟩
  obtain ⟨hb3, hs3, _⟩ := backfillCheck_fields hbc
  obtain ⟨hb4, hs4, _, _, _⟩ := trimGuard_fields ht
  constructor
  · rw [hb4, hb3, dropPass_ballots, List.length_map]
    exact h1.1
  · rw [hs4, hs3, dropPass_seats]
    exact h1.2

theorem step_threshold {e e' : Election} (h : e.step = some e') :
    e'.threshold = e.threshold := by
  obtain ⟨hlen, hseats⟩ := step_preserves h
  unfold Election.threshold
  rw [hlen, hseats]

/-! ### Weight bounds through the count -/

/-- All ballot weights lie in the closed interval `[0, 1]`. -/
def WeightsOK (e : Election) : Prop :=
  ∀ b ∈ e.ballots, 0 ≤ b.weight ∧ b.weight ≤ 1

instance (e : Election) : Decidable (WeightsOK e) := by
  unfold WeightsOK; infer_instance

theorem threshold_nonneg {e : Election} (hs : 0 ≤ e.seats) : 0 ≤ e.threshold := by
  unfold Election.threshold
  apply div_nonneg
  · positivity
  · have h : (0 : ℚ) ≤ (e.seats : ℚ) := by exact_mod_cast hs
    linarith

theorem prefSum_nonneg {bs : List Ballot} (h : ∀ b ∈ bs, 0 ≤ b.weight)
    (c : Candidate) : 0 ≤ prefSum bs c := by
  unfold prefSum
  apply List.sum_nonneg
  intro x hx
  obtain ⟨b, hb, rfl⟩ := List.mem_map.mp hx
  unfold prefContrib
  by_cases hp : b.current_preference = some c
  · rw [if_pos hp]; exact h b hb
  · rw [if_neg hp]

theorem foldl_drop_weight (cs : List Candidate) :
    ∀ b : Ballot, (cs.foldl Ballot.drop b).weight = b.weight := by
  induction cs with
  | nil => intro b; rfl
  | cons c cs ih => intro b; simp only [List.foldl_cons]; rw [ih]; rfl

theorem foldl_drop_ranking (cs : List Candidate) :
    ∀ b : Ballot, (cs.foldl Ballot.drop b).ranking = cs.foldl List.erase b.ranking := by
  induction cs with
  | nil => intro b; rfl
  | cons c cs ih => intro b; simp only [List.foldl_cons]; rw [ih]; rfl

theorem transfer_surplus_weights {e1 : Election} {sd : ScoreDict} {bs : List Ballot}
    (h : e1.transfer_surplus sd = some bs)
    (hw : ∀ b ∈ e1.ballots, 0 ≤ b.weight ∧ b.weight ≤ 1)
    (hthr : 0 ≤ e1.threshold)
    (hval : ∀ p ∈ e1.winners, ∀ v, dictGet sd p = some v → e1.threshold ≤ v) :
    ∀ b2 ∈ bs, 0 ≤ b2.weight ∧ b2.weight ≤ 1 := by
  intro b2 hb2
  obtain ⟨b, hb, hfb⟩ := mapM_eq_some_mem _ _ _ h b2 hb2
  have hbw := hw b hb
  cases hp : b.current_preference with
  | none =>
    rw [hp] at hfb
    have hbb : b = b2 := Option.some.inj hfb
    exact hbb ▸ hbw
  | some p =>
    rw [hp] at hfb
    have hfb2 : (if p ∈ e1.winners then
        (match dictGet sd p with
         | none => none
         | some v =>
           if v = 0 then none
           else some { b with weight := b.weight * ((v - e1.threshold) / v) })
        else some b) = some b2 := hfb
    by_cases hpw : p ∈ e1.winners
    · rw [if_pos hpw] at hfb2
      cases hv : dictGet sd p with
      | none => rw [hv] at hfb2; exact absurd hfb2 (by simp)
      | some v =>
        rw [hv] at hfb2
        have hfb3 : (if v = 0 then none
            else some { b with weight := b.weight * ((v - e1.threshold) / v) }) =
            some b2 := hfb2
        by_cases hv0 : v = 0
        · rw [if_pos hv0] at hfb3; exact absurd hfb3 (by simp)
        · rw [if_neg hv0] at hfb3
          have hb2eq : b2 = { b with weight := b.weight * ((v - e1.threshold) / v) } :=
            (Option.some.inj hfb3).symm
          subst hb2eq
          have hvthr : e1.threshold ≤ v := hval p hpw v hv
          have hvpos : 0 < v := lt_of_le_of_ne (le_trans hthr hvthr) (Ne.symm hv0)
          have hfnn : 0 ≤ (v - e1.threshold) / v :=
            div_nonneg (by linarith) (le_of_lt hvpos)
          have hfle : (v - e1.threshold) / v ≤ 1 := by
            rw [div_le_one hvpos]; linarith
          constructor
          · show 0 ≤ b.weight * ((v - e1.threshold) / v)
            exact mul_nonneg hbw.1 hfnn
          · show b.weight * ((v - e1.threshold) / v) ≤ 1
            calc b.weight * ((v - e1.threshold) / v) ≤ b.weight * 1 :=
                  mul_le_mul_of_nonneg_left hfle hbw.1
              _ = b.weight := mul_one _
              _ ≤ 1 := hbw.2
    · rw [if_neg hpw] at hfb2
      exact (Option.some.inj hfb2) ▸ hbw

theorem step_weights {e e' : Election} (hw : WeightsOK e) (hs : 0 ≤ e.seats)
    (h : e.step = some e') : WeightsOK e' := by
  obtain ⟨sd, hsc, e1, hb, e3, hbc, ht⟩ := step_eq h
  have h1 : WeightsOK e1 := by
    by_cases hrw : 0 < (e.roundWinners sd).length
    · rw [if_pos hrw] at hb
      obtain ⟨bs, hbs, he⟩ := electRound_eq hb
      subst he
      intro b2 hb2
      refine transfer_surplus_weights hbs (fun b hbm => hw b hbm)
        (threshold_nonneg hs) ?_ b2 hb2
      intro p hp v hv
      have hp2 : p ∈ e.winners ∨ p ∈ e.roundWinners sd := List.mem_append.mp hp
      have hchar := computeScores_get hsc p
      rw [hv] at hchar
      by_cases hph : p ∈ e.hopefuls
      · rw [if_pos hph] at hchar
        have hveq : v = (if p ∈ e.winners then e.threshold else 0) + prefSum e.ballots p :=
          Option.some.inj hchar
        have hpsn : 0 ≤ prefSum e.ballots p :=
          prefSum_nonneg (fun b hbm => (hw b hbm).1) p
        show e.threshold ≤ v
        rcases hp2 with hpw | hprw
        · rw [hveq, if_pos hpw]; linarith
        · have hpf : p ∈ e.hopefuls.filter (fun c => decide (e.threshold ≤ dictGetD sd c)) :=
            mem_pySortDesc.mp hprw
          have hdec := (List.mem_filter.mp hpf).2
          have hle : e.threshold ≤ dictGetD sd p := of_decide_eq_true hdec
          rw [dictGetD_eq hv] at hle
          exact hle
      · rw [if_neg hph] at hchar
        exact absurd hchar (by simp)
    · rw [if_neg hrw] at hb
      have he := Option.some.inj hb
      subst he
      intro b2 hb2
      obtain ⟨hbal, _, _⟩ := eliminate_losers_inert e sd
      rw [hbal] at hb2
      exact hw b2 hb2
  have h2 : WeightsOK e1.dropPass := by
    intro b2 hb2
    rw [dropPass_ballots] at hb2
    obtain ⟨b, hbm, rfl⟩ := List.mem_map.mp hb2
    rw [foldl_drop_weight]
    exact h1 b hbm
  obtain ⟨hb3, _, _⟩ := backfillCheck_fields hbc
  obtain ⟨hb4, _, _, _, _⟩ := trimGuard_fields ht
  intro b2 hb2
  rw [hb4, hb3] at hb2
  exact h2 b2 hb2

theorem runLoop_zero (e : Election) :
    Election.runLoop 0 e =
      if (e.winners.length : Int) < e.seats then none else some e := by
  simp only [Election.runLoop]

theorem runLoop_succ (f : Nat) (e : Election) :
    Election.runLoop (f + 1) e =
      if (e.winners.length : Int) < e.seats then
        (e.step).bind (fun e1 => Election.runLoop f e1)
      else some e := by
  simp only [Election.runLoop]

theorem runLoop_weights :
    ∀ (fuel : Nat) {e e' : Election}, WeightsOK e → 0 ≤ e.seats →
      Election.runLoop fuel e = some e' → WeightsOK e' := by
  intro fuel
  induction fuel with
  | zero =>
    intro e e' hw hs h
    rw [runLoop_zero] at h
    by_cases hc : (e.winners.length : Int) < e.seats
    · rw [if_pos hc] at h
      exact Option.noConfusion h
    · rw [if_neg hc] at h
      exact (Option.some.inj h) ▸ hw
  | succ f ih =>
    intro e e' hw hs h
    rw [runLoop_succ] at h
    by_cases hc : (e.winners.length : Int) < e.seats
    · rw [if_pos hc, Option.bind_eq_some] at h
      obtain ⟨e1, hst, h3⟩ := h
      exact ih (step_weights hw hs hst) (by rw [(step_preserves hst).2]; exact hs) h3
    · rw [if_neg hc] at h
      exact (Option.some.inj h) ▸ hw

/-! ### Concrete elections used by counterexamples and witnesses -/

set_option maxHeartbeats 4000000

def blA : Ballot := Ballot.mk ["A"] 1

def blB : Ballot := Ballot.mk ["B"] 1

def blAB : Ballot := Ballot.mk ["A", "B"] 1

def blAC : Ballot := Ballot.mk ["A", "C"] 1

/-- Three ballots `[A, B]`, two seats: A is elected in round one and the
surplus transfer dilutes every ballot to weight `2/3`. -/
def exDilute : Election := Election.init ["A", "B", "C"] [blAB, blAB, blAB] 2

def exDiluteNext : Election := (exDilute.step).get (by with_unfolding_all decide)

/-- Five ballots, three seats: A is elected, then B and C tie at the
bottom and are both eliminated, leaving a two-seat deficit that the
backfill loop fills — exercising the accumulating
`winners.extend(final_winners)`. -/
def exBackfill : Election :=
  Election.init ["A", "B", "C"] [blA, blA, blA, blAB, blAC] 3

/-- Eight ballots, three seats: A is elected, C is eliminated alone,
and the backfill loop pops `losers` twice with only one loser
available. -/
def exCrash : Election :=
  Election.init ["A", "B", "C"] [blA, blA, blA, blA, blA, blAB, blAB, blAC] 3

def exCrash1 : Election := (exCrash.step).get (by with_unfolding_all decide)

/-- Two ballots `[A]`, `[B]`, one seat: both candidates sit exactly at
the Droop quota `2/2 = 1`, so the surplus fraction is `0`. -/
def exQuota : Election := Election.init ["A", "B"] [blA, blB] 1

def exQuotaFinal : Election :=
  (Election.runLoop 3 exQuota).get (by with_unfolding_all decide)

def exQuotaSd : ScoreDict := (exQuota.computeScores).get (by with_unfolding_all decide)

def exQuotaPost : Election :=
  (exQuota.electRound exQuotaSd (exQuota.roundWinners exQuotaSd)).get
    (by with_unfolding_all decide)

/-- A one-seat election with a clear round-one winner, for witnesses. -/
def exWin : Election := Election.init ["A", "B"] [blAB, blAB, blB] 1

def exWinSd : ScoreDict := (exWin.computeScores).get (by with_unfolding_all decide)

def exWinPost : Election :=
  (exWin.electRound exWinSd (exWin.roundWinners exWinSd)).get
    (by with_unfolding_all decide)

def exWinNext : Election := (exWin.step).get (by with_unfolding_all decide)

/-- One real ballot and three exhausted ballots: nobody reaches the
threshold `4/2 = 2`, so the round eliminates. -/
def exElim : Election :=
  Election.init ["A", "B"] [blA, Ballot.mk [] 1, Ballot.mk [] 1, Ballot.mk [] 1] 1

def exElimSd : ScoreDict := (exElim.computeScores).get (by with_unfolding_all decide)

/-! ### Claim C1 -/

/-- Claim C1 (counterexample): after one round of `exDilute` the code's
threshold is `3/3 = 1` (ballot count over seats plus one), while the
spec's formula — current total ballot weight over seats plus one — is
`2/3`; the two differ, so the threshold is not the weight sum
formula. -/
theorem C1_threshold_counterexample :
    (exDilute.step).map
        (fun e => decide (e.threshold = totalWeight e / ((e.seats : ℚ) + 1))) =
      some false := by
  with_unfolding_all decide

/-- Claim C1 (amended): the threshold equals the number of ballots —
not their current total weight — divided by `seats + 1`; a counting
step never changes the ballot count or the seat count, so the
threshold is constant across rounds rather than shrinking as weights
dilute. -/
theorem C1_threshold_constant {e e' : Election} (h : e.step = some e') :
    e'.threshold = e.threshold ∧
    e'.threshold = (e'.ballots.length : ℚ) / ((e'.seats : ℚ) + 1) :=
  ⟨step_threshold h, rfl⟩

/-- Witness for C1's amended theorem at the concrete election
`exDilute`. -/
theorem C1_threshold_constant_witness :
    exDiluteNext.threshold = exDilute.threshold ∧
    exDiluteNext.threshold =
      (exDiluteNext.ballots.length : ℚ) / ((exDiluteNext.seats : ℚ) + 1) :=
  C1_threshold_constant (Option.some_get (by with_unfolding_all decide)).symm

/-! ### Claim C2 -/

/-- Claim C2: in a counting round, `round_winners` is exactly the set
of hopefuls whose score is `≥` the threshold, sorted by descending
score; when it is non-empty the election branch appends each member to
`winners`, removes each from `hopefuls`, and records a
`Round(winners=round_winners, losers=None)` with the score
snapshot. -/
theorem C2_round_winners {e : Election} {sd : ScoreDict} {e2 : Election}
    (hsc : e.computeScores = some sd) (hnd : e.hopefuls.Nodup)
    (hne : e.roundWinners sd ≠ [])
    (hel : e.electRound sd (e.roundWinners sd) = some e2) :
    (∀ c, c ∈ e.roundWinners sd ↔ c ∈ e.hopefuls ∧ e.threshold ≤ dictGetD sd c) ∧
    (e.roundWinners sd).Pairwise (fun a b => dictGetD sd b ≤ dictGetD sd a) ∧
    e2.winners = e.winners ++ e.roundWinners sd ∧
    e2.hopefuls = e.hopefuls.filter (fun c => decide (c ∉ e.roundWinners sd)) ∧
    e2.rounds = e.rounds ++ [Round.mk (some (e.roundWinners sd)) none sd] := by
  obtain ⟨bs, hbs, he⟩ := electRound_eq hel
  subst he
  refine ⟨?_, pySortDesc_sorted sd _, rfl, ?_, rfl⟩
  · intro c
    rw [Election.roundWinners, mem_pySortDesc, List.mem_filter]
    simp only [decide_eq_true_eq]
  · show (e.roundWinners sd).foldl List.erase e.hopefuls = _
    exact foldl_erase_eq_filter _ _ hnd

/-- Witness for C2 at the concrete election `exWin` (A scores 2,
B scores 1, threshold 1, so `round_winners = [A]`). -/
theorem C2_round_winners_witness :
    (∀ c, c ∈ exWin.roundWinners exWinSd ↔
        c ∈ exWin.hopefuls ∧ exWin.threshold ≤ dictGetD exWinSd c) ∧
    (exWin.roundWinners exWinSd).Pairwise
      (fun a b => dictGetD exWinSd b ≤ dictGetD exWinSd a) ∧
    exWinPost.winners = exWin.winners ++ exWin.roundWinners exWinSd ∧
    exWinPost.hopefuls = exWin.hopefuls.filter
      (fun c => decide (c ∉ exWin.roundWinners exWinSd)) ∧
    exWinPost.rounds = exWin.rounds ++
      [Round.mk (some (exWin.roundWinners exWinSd)) none exWinSd] :=
  C2_round_winners (Option.some_get (by with_unfolding_all decide)).symm
    (by decide) (by with_unfolding_all decide)
    (Option.some_get (by with_unfolding_all decide)).symm

/-! ### Claim C3 -/

/-- Claim C3: when ballot `i`'s current preference `w` is elected this
round, the step multiplies that ballot's weight by exactly
`(score(w) - threshold) / score(w)`, drops the resolved candidates
from its ranking, and the next round's score of the ballot's new
current preference is the sum of current (diluted) weights of the
ballots preferring it — with ballot `i` contributing exactly its
diluted weight. -/
theorem C3_surplus_transfer {e : Election} {sd : ScoreDict} {e' : Election}
    {i : Nat} {b : Ballot} {w : Candidate}
    (hsc : e.computeScores = some sd)
    (hb : e.ballots[i]? = some b)
    (hw : b.current_preference = some w)
    (hwin : w ∈ e.roundWinners sd)
    (hstep : e.step = some e') :
    ∃ b2, e'.ballots[i]? = some b2 ∧
      b2.weight = b.weight * ((dictGetD sd w - e.threshold) / dictGetD sd w) ∧
      b2.ranking = ((e.winners ++ e.roundWinners sd) ++ e.losers).foldl
        List.erase b.ranking ∧
      (∀ c, b2.current_preference = some c →
        ∀ sd', e'.computeScores = some sd' → c ∈ e'.hopefuls →
          dictGetD sd' c =
            (if c ∈ e'.winners then e'.threshold else 0) + prefSum e'.ballots c ∧
          (e'.ballots.map (prefContrib c))[i]? = some b2.weight) := by
  obtain ⟨sd0, hsc0, e1, hbr, e3, hbc, ht⟩ := step_eq hstep
  rw [hsc] at hsc0
  obtain rfl : sd = sd0 := Option.some.inj hsc0
  have hrwpos : 0 < (e.roundWinners sd).length := by
    cases hrw : e.roundWinners sd with
    | nil => rw [hrw] at hwin; cases hwin
    | cons a l => simp [hrw]
  rw [if_pos hrwpos] at hbr
  obtain ⟨bs, hbs, he1⟩ := electRound_eq hbr
  subst he1
  obtain ⟨hb3, hs3, hh3⟩ := backfillCheck_fields hbc
  obtain ⟨hb4, hs4, hh4, hl4, hr4⟩ := trimGuard_fields ht
  have hi : i < e.ballots.length := by
    by_contra hge
    push_neg at hge
    rw [List.getElem?_eq_none hge] at hb
    exact Option.noConfusion hb
  have hbs2 : e.ballots.mapM (fun bb =>
      match bb.current_preference with
      | none => some bb
      | some p =>
        if p ∈ e.winners ++ e.roundWinners sd then
          match dictGet sd p with
          | none => none
          | some v =>
            if v = 0 then none
            else some { bb with weight := bb.weight * ((v - e.threshold) / v) }
        else some bb) = some bs := hbs
  have hlen : bs.length = e.ballots.length := mapM_eq_some_length _ _ _ hbs2
  have hlti : i < bs.length := by rw [hlen]; exact hi
  have hbsi := mapM_eq_some_getElem _ _ _ hbs2 i
  rw [hb] at hbsi
  have hbsi2 : bs[i]? =
      (match b.current_preference with
       | none => some b
       | some p =>
         if p ∈ e.winners ++ e.roundWinners sd then
           match dictGet sd p with
           | none => none
           | some v =>
             if v = 0 then none
             else some { b with weight := b.weight * ((v - e.threshold) / v) }
         else some b) := hbsi
  rw [hw] at hbsi2
  have hwmem : w ∈ e.winners ++ e.roundWinners sd :=
    List.mem_append.mpr (Or.inr hwin)
  have hbsi3 : bs[i]? =
      (if w ∈ e.winners ++ e.roundWinners sd then
         match dictGet sd w with
         | none => none
         | some v =>
           if v = 0 then none
           else some { b with weight := b.weight * ((v - e.threshold) / v) }
       else some b) := hbsi2
  rw [if_pos hwmem] at hbsi3
  have hsomei : bs[i]? = some (bs.get ⟨i, hlti⟩) := by
    rw [List.getElem?_eq_getElem hlti]
    rfl
  cases hv : dictGet sd w with
  | none =>
    rw [hv] at hbsi3
    rw [hsomei] at hbsi3
    exact absurd hbsi3 (by simp)
  | some v =>
    rw [hv] at hbsi3
    have hbsi4 : bs[i]? =
        (if v = 0 then none
         else some { b with weight := b.weight * ((v - e.threshold) / v) }) := hbsi3
    by_cases hv0 : v = 0
    · rw [if_pos hv0] at hbsi4
      rw [hsomei] at hbsi4
      exact absurd hbsi4 (by simp)
    · rw [if_neg hv0] at hbsi4
      have hballots : e'.ballots = bs.map
          (fun bb => ((e.winners ++ e.roundWinners sd) ++ e.losers).foldl
            Ballot.drop bb) := by
        rw [hb4, hb3, dropPass_ballots]
      refine ⟨((e.winners ++ e.roundWinners sd) ++ e.losers).foldl Ballot.drop
        { b with weight := b.weight * ((v - e.threshold) / v) }, ?_, ?_, ?_, ?_⟩
      · rw [hballots, List.getElem?_map, hbsi4]
        rfl
      · rw [foldl_drop_weight, dictGetD_eq hv]
      · rw [foldl_drop_ranking]
      · intro c hc sd' hsc' hch
        constructor
        · have hchar := computeScores_get hsc' c
          rw [if_pos hch] at hchar
          exact dictGetD_eq hchar
        · rw [hballots, List.getElem?_map, List.getElem?_map, hbsi4]
          show some (prefContrib c (((e.winners ++ e.roundWinners sd) ++ e.losers).foldl
            Ballot.drop { b with weight := b.weight * ((v - e.threshold) / v) })) = _
          rw [prefContrib, if_pos hc]

/-- Witness for C3 at ballot 0 of `exWin` (preference A, elected with
score 2 against threshold 1; the ballot is diluted to weight `1/2` and
credited to B in the next round). -/
theorem C3_surplus_transfer_witness :
    ∃ b2, exWinNext.ballots[0]? = some b2 ∧
      b2.weight = blAB.weight *
        ((dictGetD exWinSd "A" - exWin.threshold) / dictGetD exWinSd "A") ∧
      b2.ranking = ((exWin.winners ++ exWin.roundWinners exWinSd) ++ exWin.losers).foldl
        List.erase blAB.ranking ∧
      (∀ c, b2.current_preference = some c →
        ∀ sd', exWinNext.computeScores = some sd' → c ∈ exWinNext.hopefuls →
          dictGetD sd' c =
            (if c ∈ exWinNext.winners then exWinNext.threshold else 0) +
              prefSum exWinNext.ballots c ∧
          (exWinNext.ballots.map (prefContrib c))[0]? = some b2.weight) :=
  C3_surplus_transfer (Option.some_get (by with_unfolding_all decide)).symm
    (by decide) (by decide) (by with_unfolding_all decide)
    (Option.some_get (by with_unfolding_all decide)).symm

/-! ### Claim C4 -/

/-- Claim C4: in a round with no candidate at the threshold,
elimination is a no-op on empty `hopefuls`; otherwise every hopeful
tied at the minimum score is eliminated in that round: all of them
are appended to `losers` in hopefuls order, removed from `hopefuls`,
and a `Round(winners=None, losers=that list)` is recorded. -/
theorem C4_elimination {e : Election} {sd : ScoreDict}
    (hsc : e.computeScores = some sd) (hnd : e.hopefuls.Nodup)
    (hrw : e.roundWinners sd = []) :
    (e.hopefuls = [] → e.eliminate_losers sd = e) ∧
    (∀ c0 rest, e.hopefuls = c0 :: rest →
      pyMinScore sd c0 rest ∈ e.hopefuls ∧
      (∀ c ∈ e.hopefuls, dictGetD sd (pyMinScore sd c0 rest) ≤ dictGetD sd c) ∧
      (∀ c, c ∈ e.hopefuls.filter
          (fun c2 => decide (dictGetD sd c2 = dictGetD sd (pyMinScore sd c0 rest))) ↔
        c ∈ e.hopefuls ∧ dictGetD sd c = dictGetD sd (pyMinScore sd c0 rest)) ∧
      (e.eliminate_losers sd).losers = e.losers ++ e.hopefuls.filter
        (fun c2 => decide (dictGetD sd c2 = dictGetD sd (pyMinScore sd c0 rest))) ∧
      (e.eliminate_losers sd).hopefuls = e.hopefuls.filter
        (fun c2 => decide (¬ dictGetD sd c2 = dictGetD sd (pyMinScore sd c0 rest))) ∧
      (e.eliminate_losers sd).rounds = e.rounds ++ [Round.mk none
        (some (e.hopefuls.filter
          (fun c2 => decide (dictGetD sd c2 =
            dictGetD sd (pyMinScore sd c0 rest))))) sd] ∧
      (e.eliminate_losers sd).winners = e.winners ∧
      (e.eliminate_losers sd).ballots = e.ballots) := by
  constructor
  · intro h0
    unfold Election.eliminate_losers
    rw [h0]
  · intro c0 rest hcr
    obtain ⟨hmem0, hmin0⟩ := pyMinScore_spec sd rest c0
    have hnd2 : (c0 :: rest).Nodup := hcr ▸ hnd
    rw [hcr]
    unfold Election.eliminate_losers
    rw [hcr]
    dsimp only
    refine ⟨hmem0, hmin0, ?_, rfl, ?_, rfl, rfl, rfl⟩
    · intro c
      rw [List.mem_filter]
      simp only [decide_eq_true_eq]
    · rw [foldl_erase_eq_filter _ _ hnd2]
      apply List.filter_congr
      intro c hcmem
      by_cases hcs : dictGetD sd c = dictGetD sd (pyMinScore sd c0 rest) <;>
        simp [List.mem_filter, hcs, hcmem]

/-- Witness for C4 at `exElim` (A scores 1, B scores 0, threshold 2;
B is the unique minimum and is eliminated). -/
theorem C4_elimination_witness :
    pyMinScore exElimSd "A" ["B"] ∈ exElim.hopefuls ∧
    (∀ c ∈ exElim.hopefuls,
      dictGetD exElimSd (pyMinScore exElimSd "A" ["B"]) ≤ dictGetD exElimSd c) ∧
    (∀ c, c ∈ exElim.hopefuls.filter
        (fun c2 => decide (dictGetD exElimSd c2 =
          dictGetD exElimSd (pyMinScore exElimSd "A" ["B"]))) ↔
      c ∈ exElim.hopefuls ∧ dictGetD exElimSd c =
        dictGetD exElimSd (pyMinScore exElimSd "A" ["B"])) ∧
    (exElim.eliminate_losers exElimSd).losers = exElim.losers ++ exElim.hopefuls.filter
      (fun c2 => decide (dictGetD exElimSd c2 =
        dictGetD exElimSd (pyMinScore exElimSd "A" ["B"]))) ∧
    (exElim.eliminate_losers exElimSd).hopefuls = exElim.hopefuls.filter
      (fun c2 => decide (¬ dictGetD exElimSd c2 =
        dictGetD exElimSd (pyMinScore exElimSd "A" ["B"]))) ∧
    (exElim.eliminate_losers exElimSd).rounds = exElim.rounds ++ [Round.mk none
      (some (exElim.hopefuls.filter
        (fun c2 => decide (dictGetD exElimSd c2 =
          dictGetD exElimSd (pyMinScore exElimSd "A" ["B"]))))) exElimSd] ∧
    (exElim.eliminate_losers exElimSd).winners = exElim.winners ∧
    (exElim.eliminate_losers exElimSd).ballots = exElim.ballots :=
  (C4_elimination (Option.some_get (by with_unfolding_all decide)).symm (by decide)
    (by with_unfolding_all decide)).2 "A" ["B"] rfl

/-! ### Claim C5 -/

/-- Claim C5 (code bug): on `exBackfill` the backfill pops C then B
off `losers`, but because the inner loop extends `winners` with the
whole accumulated `final_winners` list each iteration, the final
winners are `[A, C, C]` — C is seated twice and the popped B is
discarded by the overfill guard, contradicting "each popped candidate
is added to winners exactly once". -/
theorem C5_backfill_duplicates :
    (Election.runLoop 5 exBackfill).map (fun e => (e.winners, e.losers)) =
      some ((["A", "C", "C"], [])) := by
  with_unfolding_all decide

/-! ### Claim C6 -/

theorem runLoop_crash_after_two (e e1 : Election) (h1 : e.step = some e1)
    (h2 : e1.step = none) (hc : (e.winners.length : Int) < e.seats)
    (hc1 : (e1.winners.length : Int) < e1.seats) :
    ∀ fuel, Election.runLoop fuel e = none := by
  intro fuel
  cases fuel with
  | zero => rw [runLoop_zero, if_pos hc]
  | succ f =>
    rw [runLoop_succ, if_pos hc, h1]
    show Election.runLoop f e1 = none
    cases f with
    | zero => rw [runLoop_zero, if_pos hc1]
    | succ g =>
      rw [runLoop_succ, if_pos hc1, h2]
      rfl

/-- Claim C6 (code bug): on the valid input `exCrash` (seats `3` with
three candidates, eight non-empty ballots) the count does not
terminate with `winners.length = seats`: the second round eliminates
only C, the backfill pops `losers` twice with a single loser
available, and the `IndexError` (modelled as `none`) aborts the run —
for every amount of fuel. -/
theorem C6_run_election_crashes (fuel : Nat) :
    Election.runLoop fuel exCrash = none := by
  exact runLoop_crash_after_two exCrash exCrash1
    (Option.some_get (by with_unfolding_all decide)).symm
    (by with_unfolding_all decide) (by with_unfolding_all decide)
    (by with_unfolding_all decide) fuel

/-! ### Claim C7 -/

/-- Claim C7 (code bug): after the backfill round of `exBackfill` the
partition invariant is broken at an observation point of the count:
the final state is `hopefuls = []`, `winners = [A, C, C]`,
`losers = []` — C occurs twice in `winners` and B has disappeared
from all three collections, so the union is not the original
candidate set and the collections are not duplicate-free. -/
theorem C7_partition_violated :
    (Election.runLoop 5 exBackfill).map
        (fun e => (e.hopefuls, e.winners, e.losers)) =
      some (([], ["A", "C", "C"], [])) ∧
    ¬ (["A", "C", "C"] : List Candidate).Nodup ∧
    ("B" : Candidate) ∉ (([] : List Candidate) ++ ["A", "C", "C"] ++ ([] : List Candidate)) := by
  refine ⟨by with_unfolding_all decide, by decide, by decide⟩

/-! ### Claim C8 -/

/-- Claim C8 (counterexample): in `exQuota` both candidates sit exactly
at the quota, the surplus fraction is `(1 - 1) / 1 = 0`, and after the
first round both ballot weights are exactly `0` — the weight does not
stay strictly greater than `0` throughout the count. -/
theorem C8_weight_zero_counterexample :
    (Election.runLoop 3 exQuota).map (fun e => e.ballots.map Ballot.weight) =
      some [0, 0] := by
  with_unfolding_all decide

/-- Claim C8 (amended): with weights initially in `[0, 1]` and a
non-negative seat count, every ballot weight stays in the closed
interval `[0, 1]` — non-negative and at most `1` — after every
counting step and at the end of any completed run; the lower bound is
not strict, since a candidate elected exactly at quota zeroes the
weights of the ballots preferring it. -/
theorem C8_weights_in_unit_interval {e : Election} (hw : WeightsOK e)
    (hs : 0 ≤ e.seats) :
    (∀ e', e.step = some e' → WeightsOK e') ∧
    (∀ fuel e2, Election.runLoop fuel e = some e2 → WeightsOK e2) :=
  ⟨fun _ h => step_weights hw hs h, fun fuel _ h => runLoop_weights fuel hw hs h⟩

/-- Witness for C8's amended theorem: the completed run of `exQuota`
still has all weights in `[0, 1]` (they are both `0`). -/
theorem C8_weights_witness : WeightsOK exQuotaFinal :=
  (C8_weights_in_unit_interval (by decide) (by decide)).2 3 exQuotaFinal
    (Option.some_get (by with_unfolding_all decide)).symm

/-! ### Claim C9 -/

/-- Claim C9 (counterexample): constructing an `Election` with
`seats = 2` but a single candidate does not fail fast — the
constructor returns a perfectly ordinary instance — and the count
later misbehaves: the run crashes (pops an empty `losers` list in the
backfill, `none` in the model). -/
theorem C9_no_validation_counterexample :
    Election.init ["A"] [Ballot.mk ["A"] 1] 2 =
      Election.mk ["A"] [Ballot.mk ["A"] 1] 2 [] [] [] ∧
    Election.runLoop 5 (Election.init ["A"] [Ballot.mk ["A"] 1] 2) = none := by
  refine ⟨rfl, by with_unfolding_all decide⟩

/-- Claim C9 (amended): `Election.__init__` performs no validation at
all: it stores the given fields unchanged for every `seats` value;
with `seats ≤ 0` the counting loop exits immediately (leaving
`winners` empty), and invalid `seats` can make the count itself crash
later rather than being rejected at construction. -/
theorem C9_init_unvalidated (cs : List Candidate) (bs : List Ballot) (s : Int) :
    Election.init cs bs s = Election.mk cs bs s [] [] [] ∧
    (s ≤ 0 → ∀ fuel,
      Election.runLoop fuel (Election.init cs bs s) = some (Election.init cs bs s)) := by
  refine ⟨rfl, ?_⟩
  intro hs fuel
  have hc : ¬ (((Election.init cs bs s).winners.length : Int) <
      (Election.init cs bs s).seats) := by
    show ¬ ((([] : List Candidate).length : Int) < s)
    simp only [List.length_nil, Nat.cast_zero]
    omega
  cases fuel with
  | zero => rw [runLoop_zero, if_neg hc]
  | succ f => rw [runLoop_succ, if_neg hc]

/-- Witness for C9's amended theorem at `seats = 0`. -/
theorem C9_init_unvalidated_witness :
    Election.init ["A"] [] 0 = Election.mk ["A"] [] 0 [] [] [] ∧
    Election.runLoop 7 (Election.init ["A"] [] 0) = some (Election.init ["A"] [] 0) := by
  obtain ⟨h1, h2⟩ := C9_init_unvalidated ["A"] [] 0
  exact ⟨h1, h2 (by decide) 7⟩

/-! ### Claim C10 -/

/-- Claim C10: the descending sort of round winners is stable — for
every score value `s`, the winners scoring `s` appear in exactly the
order they occupy in `hopefuls` (the filter by score is unchanged by
the sort) — and the election branch appends `round_winners` to
`winners` in that order, so equal-score winners receive their seats
deterministically in hopefuls order. -/
theorem C10_stable_tie_order (e : Election) (sd : ScoreDict) (s : ℚ) :
    (e.roundWinners sd).filter (fun c => decide (dictGetD sd c = s)) =
      (e.hopefuls.filter (fun c => decide (e.threshold ≤ dictGetD sd c))).filter
        (fun c => decide (dictGetD sd c = s)) ∧
    (∀ e2, e.electRound sd (e.roundWinners sd) = some e2 →
      e2.winners = e.winners ++ e.roundWinners sd) := by
  refine ⟨pySortDesc_filter_eq sd s _, ?_⟩
  intro e2 hel
  obtain ⟨bs, hbs, he⟩ := electRound_eq hel
  subst he
  rfl

/-- Witness for C10 at `exQuota`, where A and B tie exactly at the
threshold: the tied winners keep their hopefuls order `[A, B]`. -/
theorem C10_stable_tie_order_witness :
    ((exQuota.roundWinners exQuotaSd).filter
        (fun c => decide (dictGetD exQuotaSd c = 1)) =
      (exQuota.hopefuls.filter
        (fun c => decide (exQuota.threshold ≤ dictGetD exQuotaSd c))).filter
        (fun c => decide (dictGetD exQuotaSd c = 1))) ∧
    exQuotaPost.winners = exQuota.winners ++ exQuota.roundWinners exQuotaSd := by
  obtain ⟨h1, h2⟩ := C10_stable_tie_order exQuota exQuotaSd 1
  exact ⟨h1, h2 exQuotaPost (Option.some_get (by with_unfolding_all decide)).symm⟩

end STV
